import Mathlib

/-!
Verification of `build_tools/update_iree_version_pins.py` and
`tests/kernel/wave/wave_evoformer_test.py`.

Strings are modelled as `List Char`.  The version-pin script uses three
regular-expression operations, all built from patterns of the shape
`<literal>` or `<literal>(.*)` where `.` does not match a newline:

  * `re.compile(f"{package_name}\s\((.*)\)").match(output)` in
    `get_latest_package_version` (anchored at position 0, greedy group);
  * `re.findall("iree-base-compiler==(.*)", text)` in `main`;
  * `re.sub("<pin>==.*", "<pin>==" + version, text)` in `main`.

Because `.` never matches `'\n'`, a match of `<pin>.*` runs from the first
occurrence of the literal `<pin>` inside one line to the end of that line,
and distinct matches live on distinct lines.  The embeddings below exploit
this: `reSubToEol` and `reFindallToEol` split the text on `'\n'`, act on
each line, and join back.

Python `re.sub` additionally processes backslash escapes in the
replacement string (`\n` becomes a newline, `\1` is a group reference
that raises for these group-free patterns, `\\` collapses, ...).  This
template processing is modelled by `parseTemplate`/`pyReSubToEol`; the
function `reSubToEol` is the literal-replacement core, which coincides
with the processed model exactly when the replacement contains no
backslash (`pyReSubToEol_no_backslash`).
-/

/-- Boolean test that `p` is a prefix of `s` (`List.isPrefixOf`,
re-defined here so that all lemmas about it are proved in this file). -/
def pfx : List Char → List Char → Bool
  | [], _ => true
  | _ :: _, [] => false
  | c :: p, d :: s => c == d && pfx p s

/-- Index of the leftmost occurrence of `pat` in `s`, if any.  This is the
position at which the Python regex scan first matches a pattern that starts
with the literal `pat`. -/
def firstOcc (pat : List Char) : List Char → Option Nat
  | [] => if pfx pat [] then some 0 else none
  | c :: rest =>
    if pfx pat (c :: rest) then some 0
    else (firstOcc pat rest).map (· + 1)

/-- Whether `pat` occurs somewhere in `s` as a contiguous substring. -/
def containsSubstr (pat s : List Char) : Bool := (firstOcc pat s).isSome

/-- Split a text on `'\n'`, like the Python `str.split("\n")`: always
returns at least one (possibly empty) line, and `n` newline characters
produce `n + 1` lines. -/
def splitNl : List Char → List (List Char)
  | [] => [[]]
  | c :: rest =>
    if c == '\n' then [] :: splitNl rest
    else
      match splitNl rest with
      | [] => [[c]]
      | l :: ls => (c :: l) :: ls

/-- Join lines with `'\n'` separators; left inverse of `splitNl`. -/
def joinNl : List (List Char) → List Char
  | [] => []
  | [l] => l
  | l :: l' :: ls => l ++ '\n' :: joinNl (l' :: ls)

/-- Action of `re.sub(pin + ".*", repl, _)` on a single newline-free line
for a replacement `repl` that expands to itself (no backslash): the
leftmost match starts at the first occurrence of the literal `pin` and
extends to the end of the line, so everything from that occurrence on is
replaced by `repl`; a line without an occurrence is unchanged.  The
general case, with replacement-template processing, is `pySubLine`
below; the two agree on backslash-free replacements
(`pySubLine_map_lit`). -/
def reSubToEolLine (pin repl line : List Char) : List Char :=
  match firstOcc pin line with
  | some i => line.take i ++ repl
  | none => line

/-- Literal-replacement core of `re.sub(pin + ".*", repl, text)`: since
`.` does not match `'\n'`, matches are per-line, one per line that
contains `pin`.  Exact for replacements without a backslash; the general
model with replacement-template processing is `pyReSubToEol` below. -/
def reSubToEol (pin repl text : List Char) : List Char :=
  joinNl ((splitNl text).map (reSubToEolLine pin repl))

/-- Model of `re.findall(pin + "(.*)", text)`: for each line containing
`pin`, the group captures from the end of the first `pin` occurrence to
the end of the line. -/
def reFindallToEol (pin text : List Char) : List (List Char) :=
  (splitNl text).filterMap (fun line =>
    (firstOcc pin line).map (fun i => line.drop (i + pin.length)))

/-- the Python `\s` on the ASCII range (the characters relevant to the
`pip index versions` output parsed by the script). -/
def pyIsSpace (c : Char) : Bool :=
  c == ' ' || c == '\t' || c == '\n' || c == '\r' || c == '\x0b' || c == '\x0c'

/-- Greedy group of `\((.*)\)` applied at the start of `t`: `.` does not
match `'\n'`, `.*` is greedy, so the group runs up to the last `')'` of
the first line of `t`; if that line has no `')'`, the regex fails. -/
def lastCloseParenGroup (t : List Char) : Option (List Char) :=
  match (t.takeWhile (fun c => !(c == '\n'))).reverse.dropWhile (fun c => !(c == ')')) with
  | [] => none
  | _ :: g => some g.reverse

/-- Model of `re.compile(f"{name}\s\((.*)\)").match(output)`: anchored at
position 0, `output` must start with the literal `name`, then one `\s`
character, then `'('`, then the greedy group closed by a `')'` on the
same line. -/
def pyMatchVersion (name s : List Char) : Option (List Char) :=
  if pfx name s then
    match s.drop name.length with
    | [] => none
    | c :: rest =>
      if pyIsSpace c then
        match rest with
        | [] => none
        | d :: t => if d = '(' then lastCloseParenGroup t else none
      else none
  else none

/-- Model of `get_latest_package_version`: parse the captured subprocess
output with the anchored regex; `RuntimeError` (modelled as
`Except.error ()`) when the regex does not match. -/
def get_latest_package_version (name output : List Char) :
    Except Unit (List Char) :=
  match pyMatchVersion name output with
  | none => Except.error ()
  | some v => Except.ok v

/-- Decidable test that the `name (version)` pattern matches at some
position of `s` (the un-anchored `search` reading of the pattern). -/
def pipIndexHasVersionPattern (name s : List Char) : Bool :=
  (List.range (s.length + 1)).any (fun i => (pyMatchVersion name (s.drop i)).isSome)

/-- The package name `"iree-base-compiler"` queried by `main`. -/
def compilerPkg : List Char := "iree-base-compiler".toList

/-- The package name `"iree-base-runtime"` queried by `main`. -/
def runtimePkg : List Char := "iree-base-runtime".toList

/-- The literal `"iree-base-compiler=="` from the patterns in `main`. -/
def compilerPin : List Char := "iree-base-compiler==".toList

/-- The literal `"iree-base-runtime=="` from the patterns in `main`. -/
def runtimePin : List Char := "iree-base-runtime==".toList

/-- One parsed item of a `re.sub` replacement template: a literal
character or a reference to group 0 (the whole match).  The two
substitution patterns of the script (`iree-base-compiler==.*` and
`iree-base-runtime==.*`) contain no capture groups, so group 0 is the
only group a replacement template can validly reference; every other
group reference raises. -/
inductive ReplItem
  | lit (c : Char)
  | group0

def isOctDigitCh (c : Char) : Bool := '0' ≤ c && c ≤ '7'

def isAsciiLetterCh (c : Char) : Bool :=
  ('a' ≤ c && c ≤ 'z') || ('A' ≤ c && c ≤ 'Z')

def octDigitVal (c : Char) : Nat := c.toNat - '0'.toNat

/-- The ESCAPES table of the `re` parser as used for replacement
templates: the eight escapes standing for one literal character. -/
def templEscape (c : Char) : Option Char :=
  if c = 'a' then some '\x07'
  else if c = 'b' then some '\x08'
  else if c = 'f' then some '\x0c'
  else if c = 'n' then some '\n'
  else if c = 'r' then some '\r'
  else if c = 't' then some '\t'
  else if c = 'v' then some '\x0b'
  else if c = '\\' then some '\\'
  else none

/-- Tail of a Python int literal after its first digit: further digits
with single underscores allowed only between digits. -/
def pyDigitRunTail : List Char → Bool
  | [] => true
  | c :: rest =>
    if c = '_' then
      match rest with
      | [] => false
      | d :: _ => d.isDigit && pyDigitRunTail rest
    else c.isDigit && pyDigitRunTail rest

def isPyDigitRun : List Char → Bool
  | [] => false
  | d :: rest => d.isDigit && pyDigitRunTail rest

/-- Whitespace stripping as done by Python `int(str)` on the ASCII
range (the same six characters as `\s`). -/
def pyStripWs (s : List Char) : List Char :=
  ((s.dropWhile pyIsSpace).reverse.dropWhile pyIsSpace).reverse

/-- Whether a `\g<...>` group name is a valid reference to group 0 for a
pattern with zero capture groups, on ASCII names: `int(name)` must parse
(optional surrounding whitespace, optional sign, digits with single
underscores in between) and evaluate to 0, i.e. every digit is `0`; note
`int("-0")` is `0` and passes the `index < 0` check.  An identifier name
never parses as an int and raises (unknown group name) since the
patterns define no named groups, so it needs no separate case. -/
def groupNameRefsZero (name : List Char) : Bool :=
  match pyStripWs name with
  | [] => false
  | c :: r =>
    if c = '+' || c = '-' then
      isPyDigitRun r && r.all (fun d => d == '0' || d == '_')
    else
      isPyDigitRun (c :: r) && (c :: r).all (fun d => d == '0' || d == '_')

def consItem (it : ReplItem) : Except Unit (List ReplItem) → Except Unit (List ReplItem)
  | Except.error e => Except.error e
  | Except.ok items => Except.ok (it :: items)

mutual

/-- Model of the `re` replacement-template parser
(CPython `parse_template`) for a pattern with zero capture groups, on
ASCII replacement strings.  A trailing lone backslash, a bad escape
(backslash followed by an ASCII letter with no assigned meaning), any
group reference other than group 0 (`\1`...`\9`, two-digit references,
and `\g<name>` for a named, nonzero or malformed name) and an octal
escape above `0o377` raise, modelled as `Except.error ()`; `\0[oo]` and
`\ooo` octal escapes and the eight single-character escapes become
literals; a backslash before any other non-letter character keeps both
characters. -/
def parseTemplate : List Char → Except Unit (List ReplItem)
  | [] => Except.ok []
  | c0 :: rest =>
    if c0 = '\\' then parseEscape rest
    else consItem (ReplItem.lit c0) (parseTemplate rest)
termination_by s => s.length

/-- Handling of one backslash escape (the argument is what follows the
backslash); each alternative of `parse_template` in order: `\g<...>`,
`\0[oo]` octal, `\d...` (three-octal-digit escape or a failing group
reference), the eight character escapes, a failing letter escape, and a
kept backslash-plus-character pair. -/
def parseEscape : List Char → Except Unit (List ReplItem)
  | [] => Except.error ()
  | c :: rest2 =>
    if c = 'g' then
      match rest2 with
      | [] => Except.error ()
      | b :: rest3 =>
        if b = '<' then parseGroupName [] rest3 else Except.error ()
    else if c = '0' then
      match rest2 with
      | [] => consItem (ReplItem.lit (Char.ofNat 0)) (parseTemplate [])
      | d2 :: rest3 =>
        if isOctDigitCh d2 then
          match rest3 with
          | [] => consItem (ReplItem.lit (Char.ofNat (octDigitVal d2))) (parseTemplate [])
          | d3 :: rest4 =>
            if isOctDigitCh d3 then
              consItem (ReplItem.lit (Char.ofNat (octDigitVal d2 * 8 + octDigitVal d3)))
                (parseTemplate rest4)
            else
              consItem (ReplItem.lit (Char.ofNat (octDigitVal d2)))
                (parseTemplate (d3 :: rest4))
        else consItem (ReplItem.lit (Char.ofNat 0)) (parseTemplate (d2 :: rest3))
    else if c.isDigit then
      match rest2 with
      | [] => Except.error ()
      | d2 :: rest3 =>
        if d2.isDigit then
          match rest3 with
          | [] => Except.error ()
          | d3 :: rest4 =>
            if isOctDigitCh c && isOctDigitCh d2 && isOctDigitCh d3 then
              if octDigitVal c * 64 + octDigitVal d2 * 8 + octDigitVal d3 > 255 then
                Except.error ()
              else
                consItem
                  (ReplItem.lit (Char.ofNat
                    (octDigitVal c * 64 + octDigitVal d2 * 8 + octDigitVal d3)))
                  (parseTemplate rest4)
            else Except.error ()
        else Except.error ()
    else
      match templEscape c with
      | some ch => consItem (ReplItem.lit ch) (parseTemplate rest2)
      | none =>
        if isAsciiLetterCh c then Except.error ()
        else
          consItem (ReplItem.lit '\\')
            (consItem (ReplItem.lit c) (parseTemplate rest2))
termination_by s => s.length

/-- Scan of a `\g<...>` group name up to the closing `>`: an absent `>`
or an empty name raises; for a zero-group pattern the reference is valid
exactly when the name parses (as a Python int) to 0. -/
def parseGroupName (acc : List Char) : List Char → Except Unit (List ReplItem)
  | [] => Except.error ()
  | c :: rest =>
    if c = '>' then
      if acc = [] then Except.error ()
      else if groupNameRefsZero acc then
        consItem ReplItem.group0 (parseTemplate rest)
      else Except.error ()
    else parseGroupName (acc ++ [c]) rest
termination_by s => s.length

end

/-- Expansion of a parsed replacement template at one match: group-0
items are replaced by the whole matched text. -/
def expandReplItems : List ReplItem → List Char → List Char
  | [], _ => []
  | ReplItem.lit c :: rest, m => c :: expandReplItems rest m
  | ReplItem.group0 :: rest, m => m ++ expandReplItems rest m

/-- Action of `re.sub(pin + ".*", <parsed template>, _)` on one
newline-free line: the match runs from the first occurrence of `pin` to
the end of the line, and that whole matched stretch is group 0. -/
def pySubLine (pin : List Char) (items : List ReplItem) (line : List Char) : List Char :=
  match firstOcc pin line with
  | some i => line.take i ++ expandReplItems items (line.drop i)
  | none => line

/-- Model of `re.sub(pin + ".*", repl, text)` including
replacement-template processing: the template is parsed once per call
(also when the pattern never matches), an invalid template raises, and
otherwise each line containing `pin` has everything from the first
occurrence on replaced by the expanded template. -/
def pyReSubToEol (pin repl text : List Char) : Except Unit (List Char) :=
  match parseTemplate repl with
  | Except.error e => Except.error e
  | Except.ok items => Except.ok (joinNl ((splitNl text).map (pySubLine pin items)))

/-- The two `re.sub` calls of `main`, in source order: first the
`iree-base-compiler==.*` substitution, then `iree-base-runtime==.*`.
This is the literal-replacement core, which agrees with the
template-processing model `pyRewriteBoth` whenever the two version
strings contain no backslash (`pyRewriteBoth_no_backslash`). -/
def rewriteBoth (compilerV runtimeV text : List Char) : List Char :=
  reSubToEol runtimePin (runtimePin ++ runtimeV)
    (reSubToEol compilerPin (compilerPin ++ compilerV) text)

/-- The two `re.sub` calls of `main` with replacement-template
processing: `re.error` from either replacement template propagates. -/
def pyRewriteBoth (compilerV runtimeV text : List Char) : Except Unit (List Char) :=
  match pyReSubToEol compilerPin (compilerPin ++ compilerV) text with
  | Except.error e => Except.error e
  | Except.ok t1 => pyReSubToEol runtimePin (runtimePin ++ runtimeV) t1

/-- The commit-message body written by `main` (the f-string at the end of
the `with open(...)` block, including its trailing indentation). -/
def commitMessageText (oldV newV : List Char) : List Char :=
  "Automated update of IREE deps to ".toList ++ newV ++
  ".\n\nDiff: https://github.com/iree-org/iree/compare/iree-".toList ++ oldV ++
  "...iree-".toList ++ newV ++ "\n        ".toList

/-- File-rewriting part of `main` (lines 84-110 of the script), given the
two queried versions and the text of `requirements-iree-pinned.txt`:
`old_version = re.findall("iree-base-compiler==(.*)", text)[0]` raises
`IndexError` (modelled as `Except.error ()`) when `findall` returns no
match, before any substitution and before either file is written;
otherwise both substitutions run and the pair (new requirements text,
commit-message text) describes the two file writes. -/
def mainProcess (compilerV runtimeV text : List Char) :
    Except Unit (List Char × List Char) :=
  match reFindallToEol compilerPin text with
  | [] => Except.error ()
  | oldV :: _ =>
    Except.ok (rewriteBoth compilerV runtimeV text,
               commitMessageText oldV compilerV)

/-- Model of `main`: query the compiler version, then the runtime version
(each from the captured output of its `pip index versions` subprocess),
then rewrite the requirements file.  An exception from either
`get_latest_package_version` call propagates before any file is opened
for writing, so the error case carries no file contents. -/
def mainRun (compilerOut runtimeOut text : List Char) :
    Except Unit (List Char × List Char) :=
  match get_latest_package_version compilerPkg compilerOut with
  | Except.error e => Except.error e
  | Except.ok cv =>
    match get_latest_package_version runtimePkg runtimeOut with
    | Except.error e => Except.error e
    | Except.ok rv => mainProcess cv rv text

/-- Whether an `Except` result is a success. -/
def exceptIsOk : Except Unit (List Char × List Char) → Bool
  | Except.ok _ => true
  | Except.error _ => false

/-- The element types over which `testEvoformerAttentionForward` is
parametrized: `@pytest.mark.parametrize("dtype", [tkl.f16, tkl.bf16])`. -/
inductive TKDType
  | f16
  | bf16
deriving DecidableEq

/-- The torch dtypes appearing in the test body. -/
inductive TorchDType
  | float16
  | bfloat16
deriving DecidableEq

/-- Dtype selection in the test body:
`torch_dtype = torch.bfloat16 if dtype == tkl.bf16 else torch.float16`. -/
def testTorchDtype (d : TKDType) : TorchDType :=
  if d = TKDType.bf16 then TorchDType.bfloat16 else TorchDType.float16

/-- Tolerance selection in the test:
`eps = 1e-2 if output.dtype == torch.float16 else 5e-2` (tolerances as
exact rationals). -/
def testEps (d : TorchDType) : ℚ :=
  if d = TorchDType.float16 then 1/100 else 5/100

/-- The quantity `torch.max(torch.abs(torch_ref - output))` over the
flattened elements of the two tensors (rational-valued model). -/
def maxAbsDiff (ref out : List ℚ) : ℚ :=
  ((List.zip ref out).map (fun p => |p.1 - p.2|)).foldr max 0

/-- Pass condition of the test:
`assert torch.max(torch.abs(torch_ref - output)).item() < eps`. -/
def evoformerAssert (ref out : List ℚ) (d : TorchDType) : Prop :=
  maxAbsDiff ref out < testEps d

/-! Basic lemmas about `pfx`. -/

theorem pfx_nil_left (s : List Char) : pfx [] s = true := rfl

theorem pfx_length_le : ∀ {p s : List Char}, pfx p s = true → p.length ≤ s.length
  | [], _, _ => Nat.zero_le _
  | _ :: _, [], h => by simp [pfx] at h
  | c :: p, d :: s, h => by
    simp only [pfx, Bool.and_eq_true] at h
    exact Nat.succ_le_succ (pfx_length_le h.2)

theorem pfx_app_self : ∀ (p w : List Char), pfx p (p ++ w) = true
  | [], _ => rfl
  | c :: p, w => by simp [pfx, pfx_app_self p w]

theorem pfx_take_eq : ∀ {p s : List Char}, pfx p s = true → s.take p.length = p
  | [], _, _ => rfl
  | _ :: _, [], h => by simp [pfx] at h
  | c :: p, d :: s, h => by
    simp only [pfx, Bool.and_eq_true, beq_iff_eq] at h
    simp [List.take, pfx_take_eq h.2, h.1]

theorem pfx_of_take_eq : ∀ {p s : List Char}, s.take p.length = p → pfx p s = true
  | [], _, _ => rfl
  | _ :: _, [], h => by simp at h
  | c :: p, d :: s, h => by
    simp only [List.length_cons, List.take_succ_cons, List.cons.injEq] at h
    simp [pfx, h.1, pfx_of_take_eq h.2]

theorem pfx_congr_take {p x y : List Char}
    (h : x.take p.length = y.take p.length) : pfx p x = pfx p y := by
  cases hx : pfx p x with
  | true => exact (pfx_of_take_eq (h ▸ pfx_take_eq hx)).symm
  | false =>
    cases hy : pfx p y with
    | false => rfl
    | true => rw [← hx, pfx_of_take_eq (h.symm ▸ pfx_take_eq hy)]

theorem pfx_append_split : ∀ {q a : List Char} (w : List Char),
    pfx q (a ++ w) = true → pfx q a = true ∨ pfx a q = true
  | [], _, _, _ => Or.inl rfl
  | _ :: _, [], _, _ => Or.inr rfl
  | c :: q, d :: a, w, h => by
    simp only [List.cons_append, pfx, Bool.and_eq_true, beq_iff_eq] at h
    rcases pfx_append_split w h.2 with h' | h'
    · exact Or.inl (by simp [pfx, h.1, h'])
    · exact Or.inr (by simp [pfx, h.1.symm, h'])

theorem pfx_app_cancel : ∀ {a b x : List Char},
    pfx (a ++ b) (a ++ x) = true → pfx b x = true
  | [], _, _, h => h
  | c :: a, b, x, h => by
    simp only [List.cons_append, pfx, Bool.and_eq_true] at h
    exact pfx_app_cancel h.2

theorem pfx_ne_nil {p s : List Char} (h : pfx p s = true) (hp : p ≠ []) :
    s ≠ [] := by
  cases s with
  | nil => cases p with
    | nil => exact absurd rfl hp
    | cons c p => simp [pfx] at h
  | cons d s => simp

theorem pfx_extend {p x : List Char} (y : List Char) (h : pfx p x = true) :
    pfx p (x ++ y) = true := by
  apply pfx_of_take_eq
  rw [List.take_append_of_le_length (pfx_length_le h)]
  exact pfx_take_eq h

/-! Take/drop utilities. -/

theorem take_cut {x y : List Char} {m : Nat} (h : x.take m = y.take m)
    {n : Nat} (hn : n ≤ m) : x.take n = y.take n := by
  have := congrArg (List.take n) h
  simpa [List.take_take, Nat.min_eq_left hn] using this

theorem drop_take_agree {x y : List Char} {m : Nat} (h : x.take m = y.take m)
    {l n : Nat} (hn : l + n ≤ m) :
    (x.drop l).take n = (y.drop l).take n := by
  have h1 : (x.take m).drop l = (y.take m).drop l := by rw [h]
  rw [List.drop_take, List.drop_take] at h1
  have hm : n ≤ m - l := Nat.le_sub_of_add_le (Nat.add_comm l n ▸ hn)
  have := congrArg (List.take n) h1
  simpa [List.take_take, Nat.min_eq_left hm] using this

theorem pfx_drop_agree {x y : List Char} {m : Nat} (h : x.take m = y.take m)
    {p : List Char} {l : Nat} (hn : l + p.length ≤ m) :
    pfx p (x.drop l) = pfx p (y.drop l) :=
  pfx_congr_take (drop_take_agree h hn)

theorem take_app_of_le {a b : List Char} {n : Nat} (h : n ≤ a.length) :
    (a ++ b).take n = a.take n :=
  List.take_append_of_le_length h

theorem drop_app_of_le {a b : List Char} {n : Nat} (h : n ≤ a.length) :
    (a ++ b).drop n = a.drop n ++ b :=
  List.drop_append_of_le_length h

theorem take_app_add : ∀ (a b : List Char) (n : Nat),
    (a ++ b).take (a.length + n) = a ++ b.take n
  | [], _, _ => by simp
  | c :: a, b, n => by
    simp only [List.cons_append, List.length_cons]
    rw [Nat.succ_add, List.take_succ_cons, take_app_add a b n]

theorem drop_app_add : ∀ (a b : List Char) (n : Nat),
    (a ++ b).drop (a.length + n) = b.drop n
  | [], _, _ => by simp
  | c :: a, b, n => by
    simp only [List.cons_append, List.length_cons]
    rw [Nat.succ_add, List.drop_succ_cons, drop_app_add a b n]

theorem take_app_add_of_len {a : List Char} {m : Nat} (h : a.length = m)
    (b : List Char) (n : Nat) : (a ++ b).take (m + n) = a ++ b.take n := by
  subst h
  exact take_app_add a b n

theorem drop_app_add_of_len {a : List Char} {m : Nat} (h : a.length = m)
    (b : List Char) (n : Nat) : (a ++ b).drop (m + n) = b.drop n := by
  subst h
  exact drop_app_add a b n

/-! Characterization of `firstOcc`. -/

theorem firstOcc_some : ∀ {pat s : List Char} {i : Nat},
    firstOcc pat s = some i →
    pfx pat (s.drop i) = true ∧ ∀ l, l < i → pfx pat (s.drop l) = false := by
  intro pat s
  induction s with
  | nil =>
    intro i h
    simp only [firstOcc] at h
    cases hp : pfx pat [] with
    | true =>
      rw [hp, if_pos rfl] at h
      cases h
      exact ⟨hp, fun l hl => absurd hl (Nat.not_lt_zero l)⟩
    | false => rw [hp] at h; simp at h
  | cons c rest ih =>
    intro i h
    simp only [firstOcc] at h
    cases hp : pfx pat (c :: rest) with
    | true =>
      rw [hp, if_pos rfl] at h
      cases h
      exact ⟨hp, fun l hl => absurd hl (Nat.not_lt_zero l)⟩
    | false =>
      rw [hp, if_neg (by simp)] at h
      cases hro : firstOcc pat rest with
      | none => rw [hro] at h; simp at h
      | some i' =>
        rw [hro] at h
        simp only [Option.map_some', Option.some.injEq] at h
        subst h
        obtain ⟨h1, h2⟩ := ih hro
        refine ⟨h1, fun l hl => ?_⟩
        cases l with
        | zero => simpa using hp
        | succ l' => exact h2 l' (Nat.lt_of_succ_lt_succ hl)

theorem firstOcc_none : ∀ {pat s : List Char},
    firstOcc pat s = none → ∀ l, pfx pat (s.drop l) = false := by
  intro pat s
  induction s with
  | nil =>
    intro h l
    simp only [firstOcc] at h
    cases hp : pfx pat [] with
    | true => rw [hp, if_pos rfl] at h; cases h
    | false => simpa [List.drop_nil] using hp
  | cons c rest ih =>
    intro h l
    simp only [firstOcc] at h
    cases hp : pfx pat (c :: rest) with
    | true => rw [hp, if_pos rfl] at h; cases h
    | false =>
      rw [hp, if_neg (by simp)] at h
      cases hro : firstOcc pat rest with
      | some i' => rw [hro] at h; simp at h
      | none =>
        cases l with
        | zero => simpa using hp
        | succ l' => exact ih hro l'

theorem firstOcc_eq_some : ∀ {pat s : List Char} {i : Nat},
    pfx pat (s.drop i) = true → (∀ l, l < i → pfx pat (s.drop l) = false) →
    firstOcc pat s = some i := by
  intro pat s
  induction s with
  | nil =>
    intro i h1 h2
    cases i with
    | zero => simp only [List.drop_nil] at h1; simp [firstOcc, h1]
    | succ i' =>
      have := h2 0 (Nat.succ_pos i')
      simp only [List.drop_nil] at h1 this
      rw [h1] at this
      exact absurd this (by simp)
  | cons c rest ih =>
    intro i h1 h2
    cases i with
    | zero =>
      simp only [List.drop_zero] at h1
      simp [firstOcc, h1]
    | succ i' =>
      have h0 : pfx pat (c :: rest) = false := by
        simpa using h2 0 (Nat.succ_pos i')
      have hrec : firstOcc pat rest = some i' := by
        apply ih
        · simpa [List.drop_succ_cons] using h1
        · intro l hl
          simpa [List.drop_succ_cons] using h2 (l + 1) (Nat.succ_lt_succ hl)
      simp [firstOcc, h0, hrec]

theorem firstOcc_lt_length {pat s : List Char} {i : Nat}
    (h : firstOcc pat s = some i) (hp : pat ≠ []) : i < s.length :=
  List.length_lt_of_drop_ne_nil (pfx_ne_nil (firstOcc_some h).1 hp)

theorem firstOcc_zero {pat s : List Char} (h : pfx pat s = true) (hp : pat ≠ []) :
    firstOcc pat s = some 0 := by
  cases s with
  | nil => exact absurd rfl (pfx_ne_nil h hp)
  | cons c rest => simp [firstOcc, h]

theorem firstOcc_of_not_contains {pat s : List Char}
    (h : containsSubstr pat s = false) : firstOcc pat s = none := by
  unfold containsSubstr at h
  cases ho : firstOcc pat s with
  | none => rfl
  | some i => rw [ho] at h; simp at h

theorem contains_of_pfx_drop {pat s : List Char} {l : Nat}
    (h : pfx pat (s.drop l) = true) : containsSubstr pat s = true := by
  unfold containsSubstr
  cases ho : firstOcc pat s with
  | none => rw [firstOcc_none ho l] at h; exact absurd h (by simp)
  | some i => rfl

/-! Structural lemmas about `firstOcc` after a to-end-of-line
substitution.  `replTake` says the replaced string agrees with the
original up to the end of the matched pattern occurrence. -/

theorem replTake {pat s w : List Char} {i : Nat}
    (h : pfx pat (s.drop i) = true) (hi : i ≤ s.length) :
    (s.take i ++ pat ++ w).take (i + pat.length) = s.take (i + pat.length) := by
  have hlen : (s.take i).length = i := List.length_take_of_le hi
  calc (s.take i ++ pat ++ w).take (i + pat.length)
      = (s.take i ++ (pat ++ w)).take (i + pat.length) := by rw [List.append_assoc]
    _ = s.take i ++ (pat ++ w).take pat.length := take_app_add_of_len hlen _ _
    _ = s.take i ++ pat := by rw [List.take_left]
    _ = s.take (i + pat.length) := by
        rw [List.take_add, pfx_take_eq h]

theorem firstOcc_repl_self {pat s : List Char} {i : Nat} (w : List Char)
    (h : firstOcc pat s = some i) (hp : pat ≠ []) :
    firstOcc pat (s.take i ++ pat ++ w) = some i := by
  obtain ⟨h1, h2⟩ := firstOcc_some h
  have hi : i < s.length := firstOcc_lt_length h hp
  have hlen : (s.take i).length = i := List.length_take_of_le (Nat.le_of_lt hi)
  apply firstOcc_eq_some
  · have hdrop : (s.take i ++ pat ++ w).drop i = pat ++ w := by
      rw [List.append_assoc]
      have := drop_app_add_of_len hlen (pat ++ w) 0
      simpa using this
    rw [hdrop]
    exact pfx_app_self pat w
  · intro l hl
    have hagree := replTake (w := w) h1 (Nat.le_of_lt hi)
    rw [pfx_drop_agree hagree (by omega)]
    exact h2 l hl

theorem firstOcc_agree {q s t : List Char} {j m : Nat}
    (h : firstOcc q s = some j) (ht : t.take m = s.take m)
    (hm : j + q.length ≤ m) : firstOcc q t = some j := by
  obtain ⟨h1, h2⟩ := firstOcc_some h
  apply firstOcc_eq_some
  · rw [pfx_drop_agree ht hm]; exact h1
  · intro l hl
    rw [pfx_drop_agree ht (by omega)]
    exact h2 l hl

theorem straddle_cases {q u p w : List Char} {l : Nat}
    (h : pfx q ((u ++ p ++ w).drop l) = true)
    (h1 : u.length ≤ l) (h2 : l < u.length + p.length) :
    pfx (p.drop (l - u.length)) q = true ∨ pfx q (p.drop (l - u.length)) = true := by
  set d := l - u.length with hd
  have hdrop : (u ++ p ++ w).drop l = p.drop d ++ w := by
    have hl : l = u.length + d := by omega
    rw [List.append_assoc, hl, drop_app_add_of_len rfl (p ++ w) d,
      drop_app_of_le (by omega)]
  rw [hdrop] at h
  rcases pfx_append_split w h with h' | h'
  · exact Or.inr h'
  · exact Or.inl h'

/-! Idempotence of the pair of to-end-of-line substitutions, per line.
The two concrete pins cannot straddle a freshly inserted copy of each
other (checked by `decide` below), which makes the first occurrence
positions stable under a second round of substitution. -/

theorem reSub_line_eq_of_some {pin repl line : List Char} {i : Nat}
    (h : firstOcc pin line = some i) :
    reSubToEolLine pin repl line = line.take i ++ repl := by
  simp [reSubToEolLine, h]

theorem reSub_line_eq_of_none {pin repl line : List Char}
    (h : firstOcc pin line = none) :
    reSubToEolLine pin repl line = line := by
  simp [reSubToEolLine, h]

theorem take_of_repl {s w : List Char} {j n : Nat} (hjs : j ≤ s.length)
    (hn : n ≤ j) : (s.take j ++ w).take n = s.take n := by
  rw [take_app_of_le (by rw [List.length_take_of_le hjs]; exact hn),
    List.take_take, Nat.min_eq_left hn]

theorem no_occ_in_window {p q v s : List Char} {j : Nat}
    (hfact : ∀ d, d < p.length → pfx (p.drop d) q = false ∧ pfx q (p.drop d) = false)
    (hlen : q.length ≤ p.length + 1)
    (hjs : j ≤ s.length)
    (hpfx : pfx p (s.drop j) = true)
    (hno : ∀ t, t < j → pfx q (s.drop t) = false) :
    ∀ t, t < j + p.length → pfx q ((s.take j ++ p ++ v).drop t) = false := by
  intro t ht
  by_cases hcase : t < j
  · rw [pfx_drop_agree (replTake hpfx hjs) (by omega)]
    exact hno t hcase
  · push_neg at hcase
    cases hocc : pfx q ((s.take j ++ p ++ v).drop t) with
    | false => rfl
    | true =>
      exfalso
      have hulen : (s.take j).length = j := List.length_take_of_le hjs
      have hs := straddle_cases hocc (by omega) (by omega)
      rw [hulen] at hs
      rcases hs with h' | h'
      · rw [(hfact (t - j) (by omega)).1] at h'
        exact absurd h' (by simp)
      · rw [(hfact (t - j) (by omega)).2] at h'
        exact absurd h' (by simp)

theorem occ_positions_in_repl {p q v s : List Char} {i j : Nat}
    (hfact_pq : ∀ d, d < p.length → pfx (p.drop d) q = false ∧ pfx q (p.drop d) = false)
    (hfact_qp : ∀ d, d < q.length → pfx (q.drop d) p = false ∧ pfx p (q.drop d) = false)
    (his : i ≤ s.length)
    (hq : pfx q ((s.take i ++ p ++ v).drop j) = true) :
    j + q.length ≤ i ∨ i + p.length ≤ j := by
  by_contra hcon
  push_neg at hcon
  obtain ⟨hc1, hc2⟩ := hcon
  have hulen : (s.take i).length = i := List.length_take_of_le his
  by_cases hij : i ≤ j
  · have hs := straddle_cases hq (by omega) (by omega)
    rw [hulen] at hs
    rcases hs with h' | h'
    · rw [(hfact_pq (j - i) (by omega)).1] at h'
      exact absurd h' (by simp)
    · rw [(hfact_pq (j - i) (by omega)).2] at h'
      exact absurd h' (by simp)
  · push_neg at hij
    have hdrop : (s.take i ++ p ++ v).drop j = (s.take i).drop j ++ (p ++ v) := by
      rw [List.append_assoc]
      exact drop_app_of_le (by omega)
    rw [hdrop] at hq
    have halen : ((s.take i).drop j).length = i - j := by
      rw [List.length_drop, hulen]
    rcases pfx_append_split (p ++ v) hq with h' | h'
    · have := pfx_length_le h'
      rw [halen] at this
      omega
    · have htk : q.take ((s.take i).drop j).length = (s.take i).drop j :=
        pfx_take_eq h'
      have hsplit : pfx (q.drop (i - j)) (p ++ v) = true := by
        apply pfx_app_cancel (a := (s.take i).drop j)
        have hq' : q = (s.take i).drop j ++ q.drop (i - j) := by
          conv_lhs => rw [← List.take_append_drop ((s.take i).drop j).length q]
          rw [htk, halen]
        rw [← hq']
        exact hq
      rcases pfx_append_split v hsplit with h'' | h''
      · rw [(hfact_qp (i - j) (by omega)).1] at h''
        exact absurd h'' (by simp)
      · rw [(hfact_qp (i - j) (by omega)).2] at h''
        exact absurd h'' (by simp)

theorem stable_point {p q vp vq z : List Char} {j : Nat}
    (hp_ne : p ≠ []) (hq_ne : q ≠ [])
    (hzq : firstOcc q z = some j)
    (hwin : ∀ t, t < j + q.length → pfx p (z.drop t) = false)
    (hfix : z.take j ++ (q ++ vq) = z) :
    reSubToEolLine q (q ++ vq) (reSubToEolLine p (p ++ vp) z) = z := by
  cases hk : firstOcc p z with
  | none =>
    rw [reSub_line_eq_of_none hk, reSub_line_eq_of_some hzq, hfix]
  | some k =>
    have hk_ge : j + q.length ≤ k := by
      by_contra h'
      push_neg at h'
      have h1 := (firstOcc_some hk).1
      rw [hwin k h'] at h1
      exact absurd h1 (by simp)
    have hkz : k < z.length := firstOcc_lt_length hk hp_ne
    have hagree : (z.take k ++ (p ++ vp)).take k = z.take k :=
      take_of_repl (Nat.le_of_lt hkz) (Nat.le_refl k)
    rw [reSub_line_eq_of_some hk,
      reSub_line_eq_of_some (firstOcc_agree hzq hagree hk_ge),
      take_of_repl (Nat.le_of_lt hkz) (by omega), hfix]

theorem subLine_pair_idem {p q : List Char} (vp vq l : List Char)
    (hp_ne : p ≠ []) (hq_ne : q ≠ [])
    (hfact_pq : ∀ d, d < p.length → pfx (p.drop d) q = false ∧ pfx q (p.drop d) = false)
    (hfact_qp : ∀ d, d < q.length → pfx (q.drop d) p = false ∧ pfx p (q.drop d) = false)
    (hlen_qp : q.length ≤ p.length + 1) (hlen_pq : p.length ≤ q.length + 1) :
    reSubToEolLine q (q ++ vq) (reSubToEolLine p (p ++ vp)
      (reSubToEolLine q (q ++ vq) (reSubToEolLine p (p ++ vp) l)))
    = reSubToEolLine q (q ++ vq) (reSubToEolLine p (p ++ vp) l) := by
  have hqpos : 0 < q.length := List.length_pos.mpr hq_ne
  cases hc : firstOcc p l with
  | none =>
    rw [reSub_line_eq_of_none hc]
    cases hr : firstOcc q l with
    | none =>
      rw [reSub_line_eq_of_none hr, reSub_line_eq_of_none hc,
        reSub_line_eq_of_none hr]
    | some j =>
      rw [reSub_line_eq_of_some hr]
      have hjlen : j < l.length := firstOcc_lt_length hr hq_ne
      have hj1 := (firstOcc_some hr).1
      have hassoc : l.take j ++ (q ++ vq) = l.take j ++ q ++ vq :=
        (List.append_assoc _ _ _).symm
      rw [hassoc]
      apply stable_point hp_ne hq_ne
      · exact firstOcc_repl_self vq hr hq_ne
      · exact no_occ_in_window hfact_qp hlen_pq (Nat.le_of_lt hjlen) hj1
          (fun t _ => firstOcc_none hc t)
      · rw [← hassoc, take_of_repl (w := q ++ vq) (Nat.le_of_lt hjlen) (Nat.le_refl j)]
  | some i =>
    rw [reSub_line_eq_of_some hc]
    have hilen : i < l.length := firstOcc_lt_length hc hp_ne
    have hi1 := (firstOcc_some hc).1
    have hassoc_y : l.take i ++ (p ++ vp) = l.take i ++ p ++ vp :=
      (List.append_assoc _ _ _).symm
    rw [hassoc_y]
    have hyp_first : firstOcc p (l.take i ++ p ++ vp) = some i :=
      firstOcc_repl_self vp hc hp_ne
    have hagree_y : (l.take i ++ p ++ vp).take (i + p.length) = l.take (i + p.length) :=
      replTake hi1 (Nat.le_of_lt hilen)
    have hytake : (l.take i ++ p ++ vp).take i = l.take i := by
      rw [List.append_assoc]
      exact take_of_repl (Nat.le_of_lt hilen) (Nat.le_refl i)
    cases hj : firstOcc q (l.take i ++ p ++ vp) with
    | none =>
      rw [reSub_line_eq_of_none hj, reSub_line_eq_of_some hyp_first, hytake,
        hassoc_y, reSub_line_eq_of_none hj]
    | some j =>
      rw [reSub_line_eq_of_some hj]
      have hjy : j < (l.take i ++ p ++ vp).length := firstOcc_lt_length hj hq_ne
      have hj1 := (firstOcc_some hj).1
      have hassoc_z : (l.take i ++ p ++ vp).take j ++ (q ++ vq)
          = (l.take i ++ p ++ vp).take j ++ q ++ vq :=
        (List.append_assoc _ _ _).symm
      rw [hassoc_z]
      rcases occ_positions_in_repl hfact_pq hfact_qp (Nat.le_of_lt hilen) hj1 with
        hbr | hbr
      · -- the runtime-pin occurrence lies strictly before the replaced
        -- compiler-pin occurrence
        apply stable_point hp_ne hq_ne
        · exact firstOcc_repl_self vq hj hq_ne
        · apply no_occ_in_window hfact_qp hlen_pq (Nat.le_of_lt hjy) hj1
          intro t ht
          exact (firstOcc_some hyp_first).2 t (by omega)
        · rw [← hassoc_z, take_of_repl (w := q ++ vq) (Nat.le_of_lt hjy) (Nat.le_refl j)]
      · -- the runtime-pin occurrence lies beyond the replaced
        -- compiler-pin region: a second compiler substitution reproduces
        -- the intermediate string exactly
        have hztake : ((l.take i ++ p ++ vp).take j ++ q ++ vq).take j
            = (l.take i ++ p ++ vp).take j := by
          rw [List.append_assoc]
          exact take_of_repl (Nat.le_of_lt hjy) (Nat.le_refl j)
        have hzp : firstOcc p ((l.take i ++ p ++ vp).take j ++ q ++ vq) = some i := by
          apply firstOcc_eq_some
          · rw [pfx_drop_agree (m := j) hztake (by omega),
              pfx_drop_agree (m := i + p.length) hagree_y (by omega),
              ← pfx_drop_agree (m := i + p.length) hagree_y (by omega)]
            exact (firstOcc_some hyp_first).1
          · intro t ht
            rw [pfx_drop_agree (m := j) hztake (by omega)]
            exact (firstOcc_some hyp_first).2 t ht
        rw [reSub_line_eq_of_some hzp]
        have hz_i : ((l.take i ++ p ++ vp).take j ++ q ++ vq).take i
            = l.take i := by
          rw [List.append_assoc,
            take_of_repl (w := q ++ vq) (Nat.le_of_lt hjy) (by omega),
            take_cut hagree_y (by omega)]
        rw [hz_i, hassoc_y, reSub_line_eq_of_some hj, hassoc_z]

/-! Lemmas about `splitNl` and `joinNl`. -/

theorem splitNl_ne_nil : ∀ (s : List Char), splitNl s ≠ []
  | [] => by decide
  | c :: rest => by
    simp only [splitNl]
    by_cases hc : (c == '\n') = true
    · simp [hc]
    · simp only [hc, if_false]
      cases h : splitNl rest <;> simp

theorem joinNl_splitNl : ∀ (s : List Char), joinNl (splitNl s) = s
  | [] => rfl
  | c :: rest => by
    simp only [splitNl]
    by_cases hc : (c == '\n') = true
    · have hc' : c = '\n' := by simpa using hc
      rw [if_pos hc]
      subst hc'
      cases h : splitNl rest with
      | nil => exact absurd h (splitNl_ne_nil rest)
      | cons l ls =>
        have := joinNl_splitNl rest
        rw [h] at this
        simp [joinNl, this]
    · simp only [hc, if_false]
      cases h : splitNl rest with
      | nil => exact absurd h (splitNl_ne_nil rest)
      | cons l ls =>
        have := joinNl_splitNl rest
        rw [h] at this
        cases ls with
        | nil => simp_all [joinNl]
        | cons l' ls' => simp_all [joinNl]

theorem splitNl_no_nl : ∀ {s : List Char} {l : List Char},
    l ∈ splitNl s → '\n' ∉ l := by
  intro s
  induction s with
  | nil =>
    intro l hl
    simp only [splitNl, List.mem_singleton] at hl
    subst hl
    simp
  | cons c rest ih =>
    intro l hl
    simp only [splitNl] at hl
    by_cases hc : (c == '\n') = true
    · rw [if_pos hc] at hl
      rcases List.mem_cons.mp hl with h | h
      · subst h; simp
      · exact ih h
    · rw [if_neg hc] at hl
      cases h : splitNl rest with
      | nil => exact absurd h (splitNl_ne_nil rest)
      | cons m ms =>
        rw [h] at hl
        rcases List.mem_cons.mp hl with h' | h'
        · subst h'
          intro hmem
          rcases List.mem_cons.mp hmem with h'' | h''
          · rw [h''] at hc; simp at hc
          · have : m ∈ splitNl rest := by rw [h]; exact List.mem_cons_self m ms
            exact (ih this) h''
        · exact ih (by rw [h]; exact List.mem_cons_of_mem m h')

theorem splitNl_all_no_nl {s : List Char} : ∀ l ∈ splitNl s, '\n' ∉ l :=
  fun _ hl => splitNl_no_nl hl

theorem splitNl_of_no_nl : ∀ {l : List Char}, '\n' ∉ l → splitNl l = [l]
  | [], _ => rfl
  | c :: rest, h => by
    have hc : ¬ (c == '\n') = true := by
      simp only [beq_iff_eq]
      intro he
      exact h (he ▸ List.mem_cons_self c rest)
    have hrest : '\n' ∉ rest := fun hm => h (List.mem_cons_of_mem c hm)
    simp only [splitNl, if_neg hc, splitNl_of_no_nl hrest]

theorem splitNl_app_nl : ∀ {l : List Char}, '\n' ∉ l → ∀ (t : List Char),
    splitNl (l ++ '\n' :: t) = l :: splitNl t
  | [], _, t => by simp [splitNl]
  | c :: rest, h, t => by
    have hc : ¬ (c == '\n') = true := by
      simp only [beq_iff_eq]
      intro he
      exact h (he ▸ List.mem_cons_self c rest)
    have hrest : '\n' ∉ rest := fun hm => h (List.mem_cons_of_mem c hm)
    have hrec := splitNl_app_nl hrest t
    simp only [List.cons_append, splitNl, if_neg hc]
    rw [show rest.append ('\n' :: t) = rest ++ '\n' :: t from rfl, hrec]

theorem splitNl_joinNl : ∀ {ls : List (List Char)}, ls ≠ [] →
    (∀ l ∈ ls, '\n' ∉ l) → splitNl (joinNl ls) = ls
  | [], h, _ => absurd rfl h
  | [l], _, hnl => by
    simp only [joinNl]
    exact splitNl_of_no_nl (hnl l (List.mem_singleton_self l))
  | l :: l' :: ls, _, hnl => by
    simp only [joinNl]
    rw [splitNl_app_nl (hnl l (List.mem_cons_self _ _)) (joinNl (l' :: ls))]
    rw [splitNl_joinNl (by simp) (fun m hm => hnl m (List.mem_cons_of_mem l hm))]

/-- Splitting a substituted text recovers the per-line substitutions, as
long as the replacement text contains no newline. -/
theorem splitNl_reSubToEol {pin repl text : List Char}
    (hpin : '\n' ∉ pin) (hrepl : '\n' ∉ repl) :
    splitNl (reSubToEol pin repl text)
      = (splitNl text).map (reSubToEolLine pin repl) := by
  unfold reSubToEol
  apply splitNl_joinNl
  · intro h
    exact splitNl_ne_nil text (List.map_eq_nil.mp h)
  · intro l hl
    obtain ⟨m, hm, rfl⟩ := List.mem_map.mp hl
    unfold reSubToEolLine
    cases ho : firstOcc pin m with
    | none => exact splitNl_no_nl hm
    | some i =>
      intro hmem
      rcases List.mem_append.mp hmem with h' | h'
      · exact splitNl_no_nl hm (List.mem_of_mem_take h')
      · exact hrepl h'

/-! Concrete facts about the two pin literals, checked by computation:
neither pin can begin strictly inside (or at the start of) an inserted
copy of the other pin and continue past it. -/

theorem compilerPin_ne_nil : compilerPin ≠ [] := by decide

theorem runtimePin_ne_nil : runtimePin ≠ [] := by decide

theorem pin_facts_cr : ∀ d, d < compilerPin.length →
    pfx (compilerPin.drop d) runtimePin = false ∧
    pfx runtimePin (compilerPin.drop d) = false := by decide

theorem pin_facts_rc : ∀ d, d < runtimePin.length →
    pfx (runtimePin.drop d) compilerPin = false ∧
    pfx compilerPin (runtimePin.drop d) = false := by decide

theorem pin_len_qp : runtimePin.length ≤ compilerPin.length + 1 := by decide

theorem pin_len_pq : compilerPin.length ≤ runtimePin.length + 1 := by decide

theorem compilerPin_no_nl : '\n' ∉ compilerPin := by decide

theorem runtimePin_no_nl : '\n' ∉ runtimePin := by decide

theorem no_nl_app {a b : List Char} (ha : '\n' ∉ a) (hb : '\n' ∉ b) :
    '\n' ∉ a ++ b := by
  intro h
  rcases List.mem_append.mp h with h' | h'
  · exact ha h'
  · exact hb h'

/-- With newline-free version strings, the lines of the doubly
substituted text are the per-line substitutions of the original lines. -/
theorem rewriteBoth_lines (cv rv text : List Char)
    (hcv : '\n' ∉ cv) (hrv : '\n' ∉ rv) :
    splitNl (rewriteBoth cv rv text)
      = (splitNl text).map (fun l =>
          reSubToEolLine runtimePin (runtimePin ++ rv)
            (reSubToEolLine compilerPin (compilerPin ++ cv) l)) := by
  unfold rewriteBoth
  rw [splitNl_reSubToEol runtimePin_no_nl (no_nl_app runtimePin_no_nl hrv),
    splitNl_reSubToEol compilerPin_no_nl (no_nl_app compilerPin_no_nl hcv),
    List.map_map]
  rfl

/-! Bridge between the literal-replacement core and the
template-processing model of `re.sub`: a replacement string without a
backslash parses to itself. -/

theorem parseTemplate_nil : parseTemplate [] = Except.ok [] := by
  rw [parseTemplate]

theorem parseTemplate_cons_of_ne {c : Char} (rest : List Char) (hc : ¬ c = '\\') :
    parseTemplate (c :: rest) = consItem (ReplItem.lit c) (parseTemplate rest) := by
  rw [parseTemplate, if_neg hc]

theorem parseTemplate_no_backslash : ∀ {repl : List Char}, '\\' ∉ repl →
    parseTemplate repl = Except.ok (repl.map ReplItem.lit) := by
  intro repl
  induction repl with
  | nil => intro _; exact parseTemplate_nil
  | cons c rest ih =>
    intro h
    have hc : ¬ c = '\\' := fun he => h (he ▸ List.mem_cons_self c rest)
    have hrest : '\\' ∉ rest := fun hm => h (List.mem_cons_of_mem c hm)
    rw [parseTemplate_cons_of_ne rest hc, ih hrest]
    simp [consItem]

theorem expandReplItems_map_lit : ∀ (repl m : List Char),
    expandReplItems (repl.map ReplItem.lit) m = repl
  | [], _ => rfl
  | c :: rest, m => by
    simp [expandReplItems, expandReplItems_map_lit rest m]

theorem pySubLine_map_lit (pin repl line : List Char) :
    pySubLine pin (repl.map ReplItem.lit) line = reSubToEolLine pin repl line := by
  unfold pySubLine reSubToEolLine
  cases firstOcc pin line <;> simp [expandReplItems_map_lit]

theorem pyReSubToEol_no_backslash {pin repl : List Char} (text : List Char)
    (h : '\\' ∉ repl) :
    pyReSubToEol pin repl text = Except.ok (reSubToEol pin repl text) := by
  unfold pyReSubToEol
  rw [parseTemplate_no_backslash h]
  show Except.ok (joinNl ((splitNl text).map (pySubLine pin (repl.map ReplItem.lit))))
      = Except.ok (reSubToEol pin repl text)
  unfold reSubToEol
  congr 1
  congr 1
  exact List.map_congr_left (fun l _ => pySubLine_map_lit pin repl l)

theorem compilerPin_no_bs : '\\' ∉ compilerPin := by decide

theorem runtimePin_no_bs : '\\' ∉ runtimePin := by decide

theorem no_bs_app {a b : List Char} (ha : '\\' ∉ a) (hb : '\\' ∉ b) :
    '\\' ∉ a ++ b := by
  intro h
  rcases List.mem_append.mp h with h' | h'
  · exact ha h'
  · exact hb h'

theorem pyRewriteBoth_no_backslash (cv rv text : List Char)
    (hcv : '\\' ∉ cv) (hrv : '\\' ∉ rv) :
    pyRewriteBoth cv rv text = Except.ok (rewriteBoth cv rv text) := by
  unfold pyRewriteBoth
  rw [pyReSubToEol_no_backslash text (no_bs_app compilerPin_no_bs hcv)]
  show pyReSubToEol runtimePin (runtimePin ++ rv)
      (reSubToEol compilerPin (compilerPin ++ cv) text)
    = Except.ok (rewriteBoth cv rv text)
  rw [pyReSubToEol_no_backslash _ (no_bs_app runtimePin_no_bs hrv)]
  rfl

/-- Idempotence of the literal-replacement core of the two
substitutions, for newline-free version strings. -/
theorem rewriteBoth_idem (cv rv text : List Char)
    (hcv : '\n' ∉ cv) (hrv : '\n' ∉ rv) :
    rewriteBoth cv rv (rewriteBoth cv rv text) = rewriteBoth cv rv text := by
  conv_lhs => rw [← joinNl_splitNl (rewriteBoth cv rv (rewriteBoth cv rv text))]
  conv_rhs => rw [← joinNl_splitNl (rewriteBoth cv rv text)]
  rw [rewriteBoth_lines cv rv _ hcv hrv, rewriteBoth_lines cv rv text hcv hrv,
    List.map_map]
  congr 1
  apply List.map_congr_left
  intro l _
  simp only [Function.comp]
  exact subLine_pair_idem cv rv l compilerPin_ne_nil runtimePin_ne_nil
    pin_facts_cr pin_facts_rc pin_len_qp pin_len_pq

/-! Lemmas for the anchored version-extraction regex. -/

theorem takeWhile_app_of_all {a : List Char} {p : Char → Bool}
    (h : ∀ c ∈ a, p c = true) (b : List Char) :
    (a ++ b).takeWhile p = a ++ b.takeWhile p := by
  induction a with
  | nil => simp
  | cons c a ih =>
    have hc : p c = true := h c (List.mem_cons_self c a)
    simp only [List.cons_append, List.takeWhile_cons, hc, if_true]
    rw [ih (fun x hx => h x (List.mem_cons_of_mem c hx))]

theorem lastCloseParenGroup_closed {v : List Char} (hv : '\n' ∉ v)
    (rest : List Char) (hrest : rest = [] ∨ ∃ r, rest = '\n' :: r) :
    lastCloseParenGroup (v ++ ')' :: rest) = some v := by
  have hline : (v ++ ')' :: rest).takeWhile (fun c => !(c == '\n')) = v ++ [')'] := by
    rw [takeWhile_app_of_all (fun c hc => by
      simp only [Bool.not_eq_true', beq_eq_false_iff_ne]
      exact fun he => hv (he ▸ hc)) (')' :: rest)]
    have h1 : (')' :: rest).takeWhile (fun c => !(c == '\n')) = ')' :: rest.takeWhile (fun c => !(c == '\n')) := by
      simp [List.takeWhile_cons]
    rw [h1]
    rcases hrest with rfl | ⟨r, rfl⟩
    · simp
    · simp [List.takeWhile_cons]
  unfold lastCloseParenGroup
  rw [hline]
  have hrev : (v ++ [')']).reverse = ')' :: v.reverse := by simp
  rw [hrev]
  have hdw : (')' :: v.reverse).dropWhile (fun c => !(c == ')')) = ')' :: v.reverse := by
    simp [List.dropWhile_cons]
  rw [hdw]
  simp

theorem lastCloseParenGroup_no_nl {t g : List Char}
    (h : lastCloseParenGroup t = some g) : '\n' ∉ g := by
  unfold lastCloseParenGroup at h
  cases hd : (t.takeWhile (fun c => !(c == '\n'))).reverse.dropWhile (fun c => !(c == ')')) with
  | nil => rw [hd] at h; exact absurd h (by simp)
  | cons x g' =>
    rw [hd] at h
    simp only [Option.some.injEq] at h
    subst h
    intro hmem
    rw [List.mem_reverse] at hmem
    have h1 : '\n' ∈ x :: g' := List.mem_cons_of_mem x hmem
    rw [← hd] at h1
    have h2 : '\n' ∈ (t.takeWhile (fun c => !(c == '\n'))).reverse :=
      (List.dropWhile_sublist _).mem h1
    rw [List.mem_reverse] at h2
    have := List.mem_takeWhile_imp h2
    simp at this

theorem pyMatchVersion_some_inv {name s w : List Char}
    (h : pyMatchVersion name s = some w) :
    ∃ t, lastCloseParenGroup t = some w := by
  unfold pyMatchVersion at h
  split at h
  · split at h
    · exact absurd h (by simp)
    · split at h
      · split at h
        · exact absurd h (by simp)
        · split at h
          · exact ⟨_, h⟩
          · exact absurd h (by simp)
      · exact absurd h (by simp)
  · exact absurd h (by simp)

theorem get_latest_version_no_nl {name output v : List Char}
    (h : get_latest_package_version name output = Except.ok v) : '\n' ∉ v := by
  unfold get_latest_package_version at h
  cases hm : pyMatchVersion name output with
  | none => rw [hm] at h; exact absurd h (by simp)
  | some w =>
    rw [hm] at h
    simp only [Except.ok.injEq] at h
    subst h
    obtain ⟨t, ht⟩ := pyMatchVersion_some_inv hm
    exact lastCloseParenGroup_no_nl ht

/-- C4. For every output string whose first line has the exact form
`<package-name> (<version>)` — i.e. the output is that line followed by
nothing or by a newline and further lines — `get_latest_package_version`
returns exactly the `<version>` substring enclosed in the parentheses. -/
theorem c4_match_first_line_version (name v rest : List Char)
    (hv : '\n' ∉ v) (hrest : rest = [] ∨ ∃ r, rest = '\n' :: r) :
    get_latest_package_version name (name ++ ' ' :: '(' :: (v ++ ')' :: rest))
      = Except.ok v := by
  have h1 : pyMatchVersion name (name ++ ' ' :: '(' :: (v ++ ')' :: rest))
      = lastCloseParenGroup (v ++ ')' :: rest) := by
    unfold pyMatchVersion
    rw [if_pos (pfx_app_self name _), List.drop_left]
    rfl
  unfold get_latest_package_version
  rw [h1, lastCloseParenGroup_closed hv rest hrest]

/-- Witness for C4 at the concrete output
`"iree-base-compiler (3.2.0rc20250109)\nAvailable versions: ..."`. -/
theorem c4_match_first_line_version_witness :
    get_latest_package_version compilerPkg
      "iree-base-compiler (3.2.0rc20250109)\nAvailable versions: 3.2.0rc20250109".toList
      = Except.ok "3.2.0rc20250109".toList := by
  have h := c4_match_first_line_version compilerPkg "3.2.0rc20250109".toList
    "\nAvailable versions: 3.2.0rc20250109".toList (by decide)
    (Or.inr ⟨"Available versions: 3.2.0rc20250109".toList, by decide⟩)
  have he : compilerPkg ++ ' ' :: '(' ::
      ("3.2.0rc20250109".toList ++ ')' :: "\nAvailable versions: 3.2.0rc20250109".toList)
      = "iree-base-compiler (3.2.0rc20250109)\nAvailable versions: 3.2.0rc20250109".toList := by
    decide
  rw [he] at h
  exact h

/-- C3. If the `<package-name> (<version>)` pattern matches at no
position of the command output (in particular the output contains no
parseable pattern at all), `get_latest_package_version` raises
`RuntimeError` instead of returning a version string. -/
theorem c3_no_pattern_raises (name output : List Char)
    (h : pipIndexHasVersionPattern name output = false) :
    get_latest_package_version name output = Except.error () := by
  have h0 : (pyMatchVersion name (output.drop 0)).isSome = false := by
    unfold pipIndexHasVersionPattern at h
    rw [List.any_eq_false] at h
    simpa using h 0 (List.mem_range.mpr (Nat.succ_pos _))
  rw [List.drop_zero] at h0
  have hnone : pyMatchVersion name output = none := by
    cases hm : pyMatchVersion name output with
    | none => rfl
    | some w => rw [hm] at h0; exact absurd h0 (by simp)
  unfold get_latest_package_version
  rw [hnone]

/-- Witness for C3 at a concrete unparseable output. -/
theorem c3_no_pattern_raises_witness :
    get_latest_package_version compilerPkg "ERROR: No matching index".toList
      = Except.error () :=
  c3_no_pattern_raises compilerPkg "ERROR: No matching index".toList (by decide)

/-- C8. When the pattern does match somewhere strictly after the start of
the output but the anchored `match` at position 0 fails,
`get_latest_package_version` still raises: `re.match` only ever tries
position 0. -/
theorem c8_anchored_match_raises (name output : List Char)
    (h0 : pyMatchVersion name output = none)
    (hlater : ∃ i, 0 < i ∧ (pyMatchVersion name (output.drop i)).isSome = true) :
    get_latest_package_version name output = Except.error () := by
  unfold get_latest_package_version
  rw [h0]

/-- Witness for C8: the pattern sits on the second line of the output,
so `search` would find it (at position 20) but the anchored match fails. -/
theorem c8_anchored_match_raises_witness :
    get_latest_package_version compilerPkg
      "Available versions:\niree-base-compiler (3.2.0)".toList
      = Except.error () :=
  c8_anchored_match_raises compilerPkg
    "Available versions:\niree-base-compiler (3.2.0)".toList
    (by decide) ⟨20, Nat.succ_pos _, by decide⟩

/-! Lifting substring occurrences from a line of a text to the text. -/

theorem splitNl_head_decomp : ∀ {s m : List Char} {ms : List (List Char)},
    splitNl s = m :: ms → ∃ b, s = m ++ b := by
  intro s
  induction s with
  | nil =>
    intro m ms h
    simp only [splitNl, List.cons.injEq] at h
    exact ⟨[], by simp [← h.1]⟩
  | cons c rest ih =>
    intro m ms h
    simp only [splitNl] at h
    by_cases hc : (c == '\n') = true
    · rw [if_pos hc] at h
      obtain ⟨h1, _⟩ := List.cons.inj h
      exact ⟨c :: rest, by simp [← h1]⟩
    · rw [if_neg hc] at h
      cases hs : splitNl rest with
      | nil => exact absurd hs (splitNl_ne_nil rest)
      | cons m' ms' =>
        rw [hs] at h
        obtain ⟨h1, _⟩ := List.cons.inj h
        obtain ⟨b, hb⟩ := ih hs
        exact ⟨b, by rw [← h1, hb]; rfl⟩

theorem mem_splitNl_decomp : ∀ {s l : List Char},
    l ∈ splitNl s → ∃ a b, s = a ++ l ++ b := by
  intro s
  induction s with
  | nil =>
    intro l hl
    simp only [splitNl, List.mem_singleton] at hl
    exact ⟨[], [], by simp [hl]⟩
  | cons c rest ih =>
    intro l hl
    simp only [splitNl] at hl
    by_cases hc : (c == '\n') = true
    · rw [if_pos hc] at hl
      rcases List.mem_cons.mp hl with h | h
      · exact ⟨[], c :: rest, by simp [h]⟩
      · obtain ⟨a, b, hab⟩ := ih h
        exact ⟨c :: a, b, by rw [hab]; rfl⟩
    · rw [if_neg hc] at hl
      cases hs : splitNl rest with
      | nil => exact absurd hs (splitNl_ne_nil rest)
      | cons m ms =>
        rw [hs] at hl
        rcases List.mem_cons.mp hl with h | h
        · obtain ⟨b, hb⟩ := splitNl_head_decomp hs
          exact ⟨[], b, by rw [h, hb]; rfl⟩
        · have hmem : l ∈ splitNl rest := by
            rw [hs]; exact List.mem_cons_of_mem m h
          obtain ⟨a, b, hab⟩ := ih hmem
          exact ⟨c :: a, b, by rw [hab]; rfl⟩

theorem contains_of_line_contains {pin text line : List Char}
    (hpin : pin ≠ []) (hmem : line ∈ splitNl text)
    (h : containsSubstr pin line = true) : containsSubstr pin text = true := by
  unfold containsSubstr at h
  cases ho : firstOcc pin line with
  | none => rw [ho] at h; exact absurd h (by simp)
  | some i =>
    have hocc := (firstOcc_some ho).1
    have hil : i < line.length :=
      List.length_lt_of_drop_ne_nil (pfx_ne_nil hocc hpin)
    obtain ⟨a, b, hab⟩ := mem_splitNl_decomp hmem
    apply contains_of_pfx_drop (l := a.length + i)
    rw [hab, List.append_assoc, drop_app_add_of_len rfl _ i,
      drop_app_of_le (Nat.le_of_lt hil)]
    exact pfx_extend b hocc

/-- When the text contains no occurrence of the pin at all, the `findall`
of `main` returns the empty list. -/
theorem findall_nil_of_not_contains {pin text : List Char} (hpin : pin ≠ [])
    (h : containsSubstr pin text = false) : reFindallToEol pin text = [] := by
  unfold reFindallToEol
  rw [List.filterMap_eq_nil]
  intro line hline
  cases ho : firstOcc pin line with
  | none => simp
  | some i =>
    have : containsSubstr pin text = true := by
      apply contains_of_line_contains hpin hline
      unfold containsSubstr
      rw [ho]
      rfl
    rw [this] at h
    exact absurd h (by simp)

/-- C2 (amended). If the requirements text contains no occurrence of the
substring `iree-base-compiler==` at all, `main` fails fatally with an
uncaught `IndexError` from `re.findall(...)[0]`, before rewriting the
text and before writing either file.  (The trigger in the original claim —
no *line starting with* a pin — is refuted by `c2_counterexample`:
a mid-line occurrence already lets the script proceed, and the
`iree-base-runtime==` pin is never checked.) -/
theorem c2_missing_pin_raises (compilerV runtimeV text : List Char)
    (h : containsSubstr compilerPin text = false) :
    mainProcess compilerV runtimeV text = Except.error () := by
  unfold mainProcess
  rw [findall_nil_of_not_contains compilerPin_ne_nil h]

/-- Witness for the amended C2 at a concrete pin-free text. -/
theorem c2_missing_pin_raises_witness :
    mainProcess "2.0".toList "2.0".toList "numpy==1.0\n# no pins here".toList
      = Except.error () :=
  c2_missing_pin_raises "2.0".toList "2.0".toList
    "numpy==1.0\n# no pins here".toList (by decide)

/-- Counterexample to C2 as stated: the text
`"# iree-base-compiler==1.0"` has no line starting with
`iree-base-compiler==` and no line starting with `iree-base-runtime==`,
yet `main` does not fail — `re.findall` matches the mid-line occurrence
and the script proceeds to rewrite and write. -/
theorem c2_counterexample :
    ¬ ((∀ l ∈ splitNl "# iree-base-compiler==1.0".toList,
          pfx compilerPin l = false ∧ pfx runtimePin l = false) →
        mainProcess "2.0".toList "2.0".toList "# iree-base-compiler==1.0".toList
          = Except.error ()) := by
  intro h
  have h2 := h (by decide)
  have h3 : exceptIsOk (mainProcess "2.0".toList "2.0".toList
      "# iree-base-compiler==1.0".toList) = true := by decide
  rw [h2] at h3
  exact absurd h3 (by simp [exceptIsOk])

/-- Counterexample to C1 as stated: for the text
`"iree-base-compiler==1.0\niree-base-runtime==1.0"` and queried versions
`2.0`/`2.0`, the rewritten text does contain the line
`iree-base-compiler==2.0`, but the *other* line (the runtime pin, line
index 1) changes as well, from `iree-base-runtime==1.0` to
`iree-base-runtime==2.0`. -/
theorem c1_counterexample :
    ¬ ((compilerPin ++ "1.0".toList)
          ∈ splitNl "iree-base-compiler==1.0\niree-base-runtime==1.0".toList →
        ((compilerPin ++ "2.0".toList)
            ∈ splitNl (rewriteBoth "2.0".toList "2.0".toList
                "iree-base-compiler==1.0\niree-base-runtime==1.0".toList) ∧
         ∀ (j : Nat) (l l' : List Char),
           (splitNl "iree-base-compiler==1.0\niree-base-runtime==1.0".toList)[j]?
             = some l →
           (splitNl (rewriteBoth "2.0".toList "2.0".toList
               "iree-base-compiler==1.0\niree-base-runtime==1.0".toList))[j]?
             = some l' →
           l ≠ compilerPin ++ "1.0".toList → l' = l)) := by
  intro h
  have h2 := (h (by decide)).2 1 "iree-base-runtime==1.0".toList
    "iree-base-runtime==2.0".toList (by decide) (by decide) (by decide)
  exact absurd h2 (by decide)

/-- Frame property of the literal-replacement core of the two
substitutions, for newline-free version strings. -/
theorem rewriteBoth_frame (text cv rv x : List Char)
    (hcv : '\n' ∉ cv) (hrv : '\n' ∉ rv)
    (hcl : containsSubstr runtimePin (compilerPin ++ cv) = false)
    (hx : (compilerPin ++ x) ∈ splitNl text) :
    (compilerPin ++ cv) ∈ splitNl (rewriteBoth cv rv text) ∧
    ∀ (j : Nat) (l : List Char), (splitNl text)[j]? = some l →
      containsSubstr compilerPin l = false →
      containsSubstr runtimePin l = false →
      (splitNl (rewriteBoth cv rv text))[j]? = some l := by
  have hlines := rewriteBoth_lines cv rv text hcv hrv
  constructor
  · have hfc : reSubToEolLine compilerPin (compilerPin ++ cv) (compilerPin ++ x)
        = compilerPin ++ cv := by
      rw [reSub_line_eq_of_some
        (firstOcc_zero (pfx_app_self compilerPin x) compilerPin_ne_nil)]
      simp
    have hfr : reSubToEolLine runtimePin (runtimePin ++ rv) (compilerPin ++ cv)
        = compilerPin ++ cv :=
      reSub_line_eq_of_none (firstOcc_of_not_contains hcl)
    rw [hlines]
    have hm := List.mem_map_of_mem (fun l =>
      reSubToEolLine runtimePin (runtimePin ++ rv)
        (reSubToEolLine compilerPin (compilerPin ++ cv) l)) hx
    simp only [hfc, hfr] at hm
    exact hm
  · intro j l hj hc hr
    rw [hlines, List.getElem?_map, hj]
    simp only [Option.map_some']
    rw [reSub_line_eq_of_none (firstOcc_of_not_contains hc),
      reSub_line_eq_of_none (firstOcc_of_not_contains hr)]

/-- C1 (amended). For every requirements text containing a line
`iree-base-compiler==X` and queried versions containing no newline and
no backslash (so that `re.sub` replacement-template processing leaves
them literal; the compiler version additionally not containing
`iree-base-runtime==`), the rewrite performed by the two substitutions
of `main` succeeds, its result contains the line `iree-base-compiler==Y`,
and every line that contains neither an `iree-base-compiler==`
occurrence nor an `iree-base-runtime==` occurrence is unchanged, at its
original position.  (Lines merely *containing* a pin — the runtime pin
line, or a comment mentioning a pin — are rewritten; this is what
refutes the claim as stated.) -/
theorem c1_rewrite_frame (text cv rv x : List Char)
    (hcv : '\n' ∉ cv) (hrv : '\n' ∉ rv)
    (hcvb : '\\' ∉ cv) (hrvb : '\\' ∉ rv)
    (hcl : containsSubstr runtimePin (compilerPin ++ cv) = false)
    (hx : (compilerPin ++ x) ∈ splitNl text) :
    ∃ t, pyRewriteBoth cv rv text = Except.ok t ∧
      (compilerPin ++ cv) ∈ splitNl t ∧
      ∀ (j : Nat) (l : List Char), (splitNl text)[j]? = some l →
        containsSubstr compilerPin l = false →
        containsSubstr runtimePin l = false →
        (splitNl t)[j]? = some l := by
  obtain ⟨h1, h2⟩ := rewriteBoth_frame text cv rv x hcv hrv hcl hx
  exact ⟨rewriteBoth cv rv text,
    pyRewriteBoth_no_backslash cv rv text hcvb hrvb, h1, h2⟩

/-- Witness for the amended C1: a three-line requirements file; the
rewrite succeeds, the comment line at index 0 is untouched and the
compiler pin line is updated. -/
theorem c1_rewrite_frame_witness :
    pyRewriteBoth "2.0".toList "0.6".toList
        "# pinned IREE packages\niree-base-compiler==1.0\niree-base-runtime==0.5".toList
      = Except.ok
        "# pinned IREE packages\niree-base-compiler==2.0\niree-base-runtime==0.6".toList ∧
    (compilerPin ++ "2.0".toList)
        ∈ splitNl
          "# pinned IREE packages\niree-base-compiler==2.0\niree-base-runtime==0.6".toList ∧
    (splitNl
        "# pinned IREE packages\niree-base-compiler==2.0\niree-base-runtime==0.6".toList)[0]?
      = some "# pinned IREE packages".toList := by
  obtain ⟨t, h1, h2, h3⟩ := c1_rewrite_frame
    "# pinned IREE packages\niree-base-compiler==1.0\niree-base-runtime==0.5".toList
    "2.0".toList "0.6".toList "1.0".toList (by decide) (by decide) (by decide)
    (by decide) (by decide) (by decide)
  have hb := pyRewriteBoth_no_backslash "2.0".toList "0.6".toList
    "# pinned IREE packages\niree-base-compiler==1.0\niree-base-runtime==0.5".toList
    (by decide) (by decide)
  have ht : t =
      "# pinned IREE packages\niree-base-compiler==2.0\niree-base-runtime==0.6".toList := by
    have h4 := hb.symm.trans h1
    injection h4 with he
    rw [← he]
    decide
  subst ht
  exact ⟨h1, h2, h3 0 "# pinned IREE packages".toList (by decide) (by decide)
    (by decide)⟩

/-- Counterexample to C10 as stated, over all version strings: with the
compiler version `"1\niree-base-compiler==2"` (which contains a newline),
applying the two substitutions once to `"iree-base-compiler==0"` yields a
two-line text, and applying them a second time doubles it to four lines. -/
theorem c10_counterexample :
    ¬ (rewriteBoth "1\niree-base-compiler==2".toList "9".toList
          (rewriteBoth "1\niree-base-compiler==2".toList "9".toList
            "iree-base-compiler==0".toList)
        = rewriteBoth "1\niree-base-compiler==2".toList "9".toList
            "iree-base-compiler==0".toList) := by
  decide

/-- C10 (amended). For every requirements text and every pair of queried
version strings containing no newline and no backslash (so that `re.sub`
replacement-template processing leaves them literal), one application of
the two substitutions of `main` succeeds, and applying the two
substitutions to its result yields that same text again.  (A version
containing a newline falsifies the claim as stated, see
`c10_counterexample`; versions containing backslashes are excluded
because the replacement template processes escapes — a backslash-n pair
inserts a newline, a backslash-1 pair raises `re.error`.) -/
theorem c10_rewrite_idem (cv rv text : List Char)
    (hcv : '\n' ∉ cv) (hrv : '\n' ∉ rv)
    (hcvb : '\\' ∉ cv) (hrvb : '\\' ∉ rv) :
    ∃ once, pyRewriteBoth cv rv text = Except.ok once ∧
      pyRewriteBoth cv rv once = Except.ok once := by
  refine ⟨rewriteBoth cv rv text, pyRewriteBoth_no_backslash cv rv text hcvb hrvb, ?_⟩
  rw [pyRewriteBoth_no_backslash cv rv _ hcvb hrvb,
    rewriteBoth_idem cv rv text hcv hrv]

/-- Witness for the amended C10 at a concrete pinned file and concrete
newline- and backslash-free versions. -/
theorem c10_rewrite_idem_witness :
    pyRewriteBoth "3.1rc1".toList "3.1rc2".toList
        "# deps\niree-base-compiler==3.0\niree-base-runtime==3.0".toList
      = Except.ok "# deps\niree-base-compiler==3.1rc1\niree-base-runtime==3.1rc2".toList ∧
    pyRewriteBoth "3.1rc1".toList "3.1rc2".toList
        "# deps\niree-base-compiler==3.1rc1\niree-base-runtime==3.1rc2".toList
      = Except.ok "# deps\niree-base-compiler==3.1rc1\niree-base-runtime==3.1rc2".toList := by
  obtain ⟨once, h1, h2⟩ := c10_rewrite_idem "3.1rc1".toList "3.1rc2".toList
    "# deps\niree-base-compiler==3.0\niree-base-runtime==3.0".toList
    (by decide) (by decide) (by decide) (by decide)
  have hb := pyRewriteBoth_no_backslash "3.1rc1".toList "3.1rc2".toList
    "# deps\niree-base-compiler==3.0\niree-base-runtime==3.0".toList
    (by decide) (by decide)
  have honce : once
      = "# deps\niree-base-compiler==3.1rc1\niree-base-runtime==3.1rc2".toList := by
    have h3 := hb.symm.trans h1
    injection h3 with he
    rw [← he]
    decide
  subst honce
  exact ⟨h1, h2⟩

/-- C9. If obtaining either package version fails (the anchored regex
does not match the compiler query output, or the runtime query output),
`main` propagates the exception: the model returns `Except.error ()`, so
neither the rewritten requirements text nor the commit-message text is
produced — no file is written.  In the script both
`get_latest_package_version` calls happen before any file is opened for
writing. -/
theorem c9_error_writes_nothing (compilerOut runtimeOut text : List Char)
    (h : get_latest_package_version compilerPkg compilerOut = Except.error () ∨
         get_latest_package_version runtimePkg runtimeOut = Except.error ()) :
    mainRun compilerOut runtimeOut text = Except.error () := by
  unfold mainRun
  rcases h with h | h
  · rw [h]
  · cases hc : get_latest_package_version compilerPkg compilerOut with
    | error e => cases e; rfl
    | ok cv => rw [h]

/-- Witness for C9: the compiler query output is unparseable, so the run
fails regardless of the runtime output and the requirements text. -/
theorem c9_error_writes_nothing_witness :
    mainRun "no versions found".toList "iree-base-runtime (3.2.0)".toList
        "iree-base-compiler==1.0".toList
      = Except.error () :=
  c9_error_writes_nothing "no versions found".toList
    "iree-base-runtime (3.2.0)".toList "iree-base-compiler==1.0".toList
    (Or.inl (by rfl))

/-! The commit-message file written by a successful `main` run. -/

theorem splitNl_head_eq : ∀ (s : List Char),
    (splitNl s).head? = some (s.takeWhile (fun c => !(c == '\n')))
  | [] => rfl
  | c :: rest => by
    simp only [splitNl]
    by_cases hc : (c == '\n') = true
    · rw [if_pos hc, List.takeWhile_cons]
      simp [hc]
    · rw [if_neg hc]
      cases hs : splitNl rest with
      | nil => exact absurd hs (splitNl_ne_nil rest)
      | cons m ms =>
        have := splitNl_head_eq rest
        rw [hs] at this
        simp only [List.head?_cons, Option.some.injEq] at this
        rw [List.takeWhile_cons]
        simp [hc, this]

theorem contains_app_mid (a pat b : List Char) :
    containsSubstr pat (a ++ pat ++ b) = true := by
  apply contains_of_pfx_drop (l := a.length)
  rw [List.append_assoc, List.drop_left]
  exact pfx_app_self pat b

theorem takeWhile_stop_after_dot (z : List Char) :
    List.takeWhile (fun c => !(c == '\n')) ('.' :: '\n' :: z) = ['.'] := by
  rw [List.takeWhile_cons_of_pos (by decide), List.takeWhile_cons_of_neg (by decide)]

/-- C7. After a successful run of `main`, the summary (first) line of the commit-message text is `Automated update of IREE deps to <new>.` where
`<new>` is the newly queried `iree-base-compiler` version, and the text
contains the comparison-link fragment
`compare/iree-<old>...iree-<new>` naming both the old pinned compiler
version (the first `findall` capture from the requirements text) and the
new version. -/
theorem c7_commit_message (compilerOut runtimeOut text nt commit : List Char)
    (h : mainRun compilerOut runtimeOut text = Except.ok (nt, commit)) :
    ∃ cv oldV rest,
      get_latest_package_version compilerPkg compilerOut = Except.ok cv ∧
      reFindallToEol compilerPin text = oldV :: rest ∧
      (splitNl commit).head?
        = some ("Automated update of IREE deps to ".toList ++ cv ++ ".".toList) ∧
      containsSubstr ("compare/iree-".toList ++ oldV ++ "...iree-".toList ++ cv)
        commit = true := by
  unfold mainRun at h
  cases hc : get_latest_package_version compilerPkg compilerOut with
  | error e => rw [hc] at h; exact absurd h (by simp)
  | ok cv =>
    rw [hc] at h
    cases hr : get_latest_package_version runtimePkg runtimeOut with
    | error e => rw [hr] at h; exact absurd h (by simp)
    | ok rv =>
      rw [hr] at h
      unfold mainProcess at h
      cases hf : reFindallToEol compilerPin text with
      | nil => rw [hf] at h; exact absurd h (by simp)
      | cons oldV rest =>
        rw [hf] at h
        simp only [Except.ok.injEq, Prod.mk.injEq] at h
        obtain ⟨_, hcommit⟩ := h
        subst hcommit
        have hcv_nl : '\n' ∉ cv := get_latest_version_no_nl hc
        refine ⟨cv, oldV, rest, rfl, rfl, ?_, ?_⟩
        · rw [splitNl_head_eq]
          congr 1
          unfold commitMessageText
          simp only [List.append_assoc]
          rw [takeWhile_app_of_all (by decide :
              ∀ c ∈ "Automated update of IREE deps to ".toList, (!(c == '\n')) = true) _]
          rw [takeWhile_app_of_all (fun c hcin => by
              simp only [Bool.not_eq_true', beq_eq_false_iff_ne]
              exact fun he => hcv_nl (he ▸ hcin)) _]
          rw [show ".\n\nDiff: https://github.com/iree-org/iree/compare/iree-".toList
              ++ (oldV ++ ("...iree-".toList ++ (cv ++ "\n        ".toList)))
              = '.' :: '\n' :: ("\nDiff: https://github.com/iree-org/iree/compare/iree-".toList
                ++ (oldV ++ ("...iree-".toList ++ (cv ++ "\n        ".toList)))) from rfl]
          rw [takeWhile_stop_after_dot]
          rfl
        · unfold commitMessageText
          rw [show ".\n\nDiff: https://github.com/iree-org/iree/compare/iree-".toList
              = ".\n\nDiff: https://github.com/iree-org/iree/".toList
                ++ "compare/iree-".toList from by decide]
          have hsplit2 : "Automated update of IREE deps to ".toList ++ cv ++
              (".\n\nDiff: https://github.com/iree-org/iree/".toList
                ++ "compare/iree-".toList) ++ oldV ++
              "...iree-".toList ++ cv ++ "\n        ".toList
              = ("Automated update of IREE deps to ".toList ++ cv ++
                  ".\n\nDiff: https://github.com/iree-org/iree/".toList)
                ++ ("compare/iree-".toList ++ oldV ++ "...iree-".toList ++ cv)
                ++ "\n        ".toList := by
            simp only [List.append_assoc]
          rw [hsplit2]
          exact contains_app_mid _ _ _

/-- Witness for C7 at a concrete successful run. -/
theorem c7_commit_message_witness :
    ∃ cv oldV rest,
      get_latest_package_version compilerPkg "iree-base-compiler (2.0)".toList
        = Except.ok cv ∧
      reFindallToEol compilerPin
        "iree-base-compiler==1.0\niree-base-runtime==1.0".toList = oldV :: rest ∧
      (splitNl "Automated update of IREE deps to 2.0.\n\nDiff: https://github.com/iree-org/iree/compare/iree-1.0...iree-2.0\n        ".toList).head?
        = some ("Automated update of IREE deps to ".toList ++ cv ++ ".".toList) ∧
      containsSubstr ("compare/iree-".toList ++ oldV ++ "...iree-".toList ++ cv)
        "Automated update of IREE deps to 2.0.\n\nDiff: https://github.com/iree-org/iree/compare/iree-1.0...iree-2.0\n        ".toList = true := by
  have h := c7_commit_message "iree-base-compiler (2.0)".toList
    "iree-base-runtime (2.1)".toList
    "iree-base-compiler==1.0\niree-base-runtime==1.0".toList
    "iree-base-compiler==2.0\niree-base-runtime==2.1".toList
    "Automated update of IREE deps to 2.0.\n\nDiff: https://github.com/iree-org/iree/compare/iree-1.0...iree-2.0\n        ".toList
    (by rfl)
  exact h

/-! Tolerance selection in the Evoformer attention test. -/

/-- C5. For each dtype over which `testEvoformerAttentionForward` is
parametrized, the absolute tolerance of the assertion is `1e-2` exactly when
the output element type is `torch.float16` and `5e-2` exactly when it is
`torch.bfloat16`, and the pass condition compares the maximum absolute
elementwise difference between reference and output against that
tolerance. -/
theorem c5_eps_selection :
    ∀ (d : TKDType) (ref out : List ℚ),
      (testEps (testTorchDtype d) = 1/100 ↔ testTorchDtype d = TorchDType.float16) ∧
      (testEps (testTorchDtype d) = 5/100 ↔ testTorchDtype d = TorchDType.bfloat16) ∧
      (evoformerAssert ref out (testTorchDtype d) ↔
        maxAbsDiff ref out < testEps (testTorchDtype d)) := by
  intro d ref out
  cases d <;>
    refine ⟨?_, ?_, Iff.rfl⟩ <;>
      simp [testTorchDtype, testEps] <;> norm_num
